import Mathlib

/-!
Verification of the longitudinal local-differential-privacy reporting
protocol implemented in `src/longitudinal.py`.

The Python source is shallowly embedded below:

* machine integers of the source become `ℤ` / `ℕ`;
* the numpy floating-point scaling computation in `Server.aggregate`
  (`np.exp`, `np.log2`) is modelled over the reals;
* randomness (`np.random.choice`, `np.random.binomial`) is modelled by
  passing the drawn values in explicitly: a `Draw` record carries the
  `{-1,+1}` noise draw and the randomized-response coin `b` (the source
  draws `b = +1` with probability `exp(eps/2)/(1+exp(eps/2))`, so the
  limit `eps → ∞` corresponds to `coin = 1`), and the two per-reset
  samples `i*` and `h*` are selected by an externally supplied index;
* Python exceptions become `Except Unit`: `Client.update` can hit an
  `IndexError` through `self.__dx[t]`, and Python sequence indexing
  accepts negative indices down to `-len`, which `pyIndex` reproduces.
-/

set_option maxRecDepth 4000

/-- Python sequence indexing: `xs[t]` resolves to offset `t` for
`0 ≤ t < n`, to `n + t` for `-n ≤ t < 0`, and raises `IndexError`
(here `none`) otherwise. -/
def pyIndex (n : ℕ) (t : ℤ) : Option ℕ :=
  if 0 ≤ t ∧ t < (n : ℤ) then some t.toNat
  else if -(n : ℤ) ≤ t ∧ t < 0 then some ((n : ℤ) + t).toNat
  else none

/-- The 1-norm `int(np.linalg.norm(dx, 1))` of an integer vector:
the sum of absolute values (exact for integer entries). -/
def norm1 (dx : List ℤ) : ℕ := (dx.map Int.natAbs).sum

/-- Number of nonzero entries of a vector. -/
def countNonzero (dx : List ℤ) : ℕ :=
  (dx.filter (fun v => decide (v ≠ 0))).length

/-- Embedding of `tree_depth_list(d) = np.arange(np.log2(d) + 1, dtype=int)`
for `d ≥ 1`: `np.arange(stop)` enumerates the integers in `[0, stop)`,
which has `⌈stop⌉` elements, and `⌈log2 d⌉ = Nat.clog 2 d`, so the result
is `[0, 1, …, ⌈log2 d⌉]`.  (Note the top entry is `⌈log2 d⌉`, which is
strictly larger than `⌊log2 d⌋` whenever `d` is not a power of two.) -/
def tree_depth_list (d : ℕ) : List ℕ :=
  List.range (Nat.clog 2 d + 1)

/-- A client report `(h, t, u)`: tree level, time step, reported value. -/
abbrev Report : Type := ℕ × ℤ × ℤ

/-- The random draws consumed by one `Client.update` call: `noise` is the
`np.random.choice([-1, 1])` draw used when no true change is disclosed,
`coin` is the randomized-response sign
`b = 2 * np.random.binomial(1, exp(eps/2)/(1+exp(eps/2))) - 1 ∈ {-1, +1}`. -/
structure Draw where
  noise : ℤ
  coin : ℤ
deriving DecidableEq

/-- State of `longitudinal.Client`: the secret differential vector `dx`,
the two behaviour flags, the per-reset samples `ic = i*` (index of the
designated change) and `hc = h*` (reporting level of the summary tree),
the running counters `i` (changes seen so far) and `c` (captured
designated change, `0` until captured and re-zeroed on disclosure), and
the derived `k` (number of changes). -/
structure Client where
  dx : List ℤ
  hideZero : Bool
  chooseLevel : Bool
  ic : ℕ
  hc : ℕ
  i : ℕ
  c : ℤ
  k : ℕ
deriving DecidableEq

/-- Embedding of `Client.__get_level`: if `choose_level` is set, pick an
entry of `tree_depth_list d` (the source picks uniformly with
`np.random.choice`; the drawn position is supplied as `r`), else `0`. -/
def Client.getLevel (chooseLevel : Bool) (d : ℕ) (r : ℕ) : ℕ :=
  if chooseLevel then
    (tree_depth_list d).getD (r % (tree_depth_list d).length) 0
  else 0

/-- Embedding of `Client.__setup` (reached through `reset`): store `dx`,
set `k = int(np.linalg.norm(dx, 1))`, sample `ic` from `{0, …, k-1}`
(`0` when `k = 0`; the drawn position is supplied as `ric`), sample the
level through `Client.getLevel`, and zero the counters `i` and `c`. -/
def Client.setup (dx : List ℤ) (hz cl : Bool) (ric rhc : ℕ) : Client :=
  { dx := dx
    hideZero := hz
    chooseLevel := cl
    ic := if 0 < norm1 dx then ric % norm1 dx else 0
    hc := Client.getLevel cl dx.length rhc
    i := 0
    c := 0
    k := norm1 dx }

/-- Embedding of `Client.reset`: replace the secret vector when one is
given (`none` retains the previous `dx`), then rerun `Client.setup`. -/
def Client.reset (s : Client) (dxNew : Option (List ℤ)) (ric rhc : ℕ) : Client :=
  Client.setup (dxNew.getD s.dx) s.hideZero s.chooseLevel ric rhc

/-- Phase 1 of `Client.update`: the captured value `c` after seeing
`dx[t]` (at resolved index `j`) — the change is captured exactly when it
is the `ic`-th one. -/
def Client.cAfter (s : Client) (j : ℕ) : ℤ :=
  if s.dx.getD j 0 ≠ 0 ∧ s.i = s.ic then s.dx.getD j 0 else s.c

/-- Phase 1 of `Client.update`: the change counter `i` after seeing
`dx[t]` (advanced exactly when `dx[t] ≠ 0`). -/
def Client.iAfter (s : Client) (j : ℕ) : ℕ :=
  if s.dx.getD j 0 ≠ 0 then s.i + 1 else s.i

/-- Body of `Client.update` once the index `j` of `dx[t]` is resolved.
Returns the new state, the optional report, and whether the
randomized-response branch ran (i.e. a true captured change was used).
Phase 1: on a change (`dx[t] ≠ 0`), capture it into `c` when it is the
`ic`-th change, and advance `i`.  Phase 2: report only when
`(t+1) % 2^hc == 0`; the reported value is the `{-1,+1}` noise draw
(or `0` when `hide_zero` is off) unless a captured change is pending, in
which case randomized response reports `coin * c` and re-zeroes `c`. -/
def Client.step (s : Client) (j : ℕ) (t : ℤ) (r : Draw) :
    Client × Option Report × Bool :=
  if (t + 1) % ((2 : ℤ) ^ s.hc) = 0 then
    if Client.cAfter s j ≠ 0 then
      ({ s with c := 0, i := Client.iAfter s j },
        some (s.hc, t, r.coin * Client.cAfter s j), true)
    else
      ({ s with c := Client.cAfter s j, i := Client.iAfter s j },
        some (s.hc, t, if s.hideZero then r.noise else 0), false)
  else
    ({ s with c := Client.cAfter s j, i := Client.iAfter s j }, none, false)

/-- Embedding of `Client.update(t, eps)`: resolve the Python index of
`self.__dx[t]` (an out-of-range `t` raises `IndexError`, modelled as
`Except.error ()`), then run `Client.step`.  The privacy parameter `eps`
only shapes the distribution of the randomized-response coin, which is
passed in through `r`. -/
def Client.update (s : Client) (t : ℤ) (r : Draw) :
    Except Unit (Client × Option Report × Bool) :=
  match pyIndex s.dx.length t with
  | none => Except.error ()
  | some j => Except.ok (Client.step s j t r)

/-- Drive a client through a sequence of `update` calls (each with its
time step and random draws).  Returns the final state, the list of
emitted results, and the number of times the randomized-response branch
ran.  An `IndexError` aborts the run, as the Python exception would. -/
def Client.run (s : Client) : List (ℤ × Draw) → Client × List (Option Report) × ℕ
  | [] => (s, [], 0)
  | (t, r) :: rest =>
    match Client.update s t r with
    | Except.error _ => (s, [], 0)
    | Except.ok res =>
      let res2 := Client.run res.1 rest
      (res2.1, res.2.1 :: res2.2.1, res2.2.2 + (if res.2.2 then 1 else 0))

/-- A key of the server's sparse summary tree: a `(level, index)` pair
(Python builds these from plain ints, so both components are `ℤ`). -/
abbrev Key : Type := ℤ × ℤ

/-- The server's summary map `T`: a sparse dictionary from tree node
keys to accumulated sums; an absent key is `none`. -/
abbrev TMap : Type := Key → Option ℤ

/-- State of `longitudinal.Server`: the horizon length `d` and the
summary map `T`. -/
structure Server where
  d : ℕ
  T : TMap

/-- The tree node key `(h+1, int((t+1) / 2^h))` that `Server.collect`
assigns to a report at level `h` and time `t`.  Python's
`int(x / y)` on nonnegative exact float quotients truncates toward
zero, which `Int.tdiv` reproduces. -/
def reportKey (h : ℕ) (t : ℤ) : Key :=
  ((h : ℤ) + 1, Int.tdiv (t + 1) ((2 : ℤ) ^ h))

/-- Dictionary accumulation `T[key] += u` with `T[key] = 0` inserted
first when `key` is absent. -/
def bump (T : TMap) (key : Key) (u : ℤ) : TMap :=
  fun p => if p = key then some ((T key).getD 0 + u) else T p

/-- One iteration of the `Server.collect` loop: skip an empty entry,
accumulate a report `(h, tr, u)` into `T[reportKey h tr]`. -/
def collectStep (T : TMap) (r : Option Report) : TMap :=
  match r with
  | none => T
  | some (h, tr, u) => bump T (reportKey h tr) u

/-- Embedding of `Server.collect(t, reports)`: fold the batch, skipping
empty (`none`) entries, and accumulate each report `(h, tr, u)` into
`T[reportKey h tr]`.  (The epoch argument `t` is unused, as in the
source.) -/
def Server.collect (srv : Server) (_t : ℤ) (reports : List (Option Report)) : Server :=
  { srv with T := reports.foldl collectStep srv.T }

/-- Sum of the values of all reports in a batch that `Server.collect`
sends to the tree node `key` (empty entries ignored). -/
def keySum (key : Key) (reports : List (Option Report)) : ℤ :=
  (((reports.filterMap id).filter
      (fun rep => decide (reportKey rep.1 rep.2.1 = key))).map
    (fun rep => rep.2.2)).sum

/-- Value of a summary-tree node with absent keys read as `0`, as in
`sum(T[c] for c in C if c in T)`. -/
def tval (T : TMap) (p : Key) : ℤ := (T p).getD 0

/-- The initial covering set `C = {(1, 1), …, (1, t+1)}` of leaves used
by `Server.aggregate` for time step `t`. -/
def leafCover (t : ℕ) : Finset Key :=
  (Finset.range (t + 1)).image (fun i : ℕ => (((1 : ℤ), ((i : ℤ) + 1)) : Key))

/-- One iteration of the sibling-folding loop body of `Server.aggregate`:
for even `i`, merge the sibling pair `(h+1, i+1)`, `(h+1, i+2)` of the
covering set into their parent `(h+2, (i+2)/2)` whenever the parent key
is present in `T`. -/
def foldStep (T : TMap) (h : ℕ) (C : Finset Key) (i : ℕ) : Finset Key :=
  if i % 2 = 0 then
    let key1 : Key := ((h : ℤ) + 1, (i : ℤ) + 1)
    let key2 : Key := ((h : ℤ) + 1, (i : ℤ) + 2)
    let key3 : Key := ((h : ℤ) + 2, Int.tdiv ((i : ℤ) + 2) 2)
    if key1 ∈ C ∧ key2 ∈ C ∧ (T key3).isSome then
      insert key3 ((C.erase key1).erase key2)
    else C
  else C

/-- The covering set computed by `Server.aggregate` for time step `t`:
the leaf cover greedily folded bottom-up over all tree levels. -/
def coverFor (T : TMap) (d t : ℕ) : Finset Key :=
  (tree_depth_list d).foldl
    (fun C h => (List.range d).foldl (foldStep T h) C) (leafCover t)

/-- The bias-correction scaling factor of `Server.aggregate`,
`a = k * log2(d) * (exp(eps/2) + 1) / (exp(eps/2) - 1)`, with the numpy
float computation modelled over the reals. -/
noncomputable def scalingFactor (k d : ℕ) (eps : ℝ) : ℝ :=
  (k : ℝ) * Real.logb 2 (d : ℝ) * (Real.exp (eps / 2) + 1) /
    (Real.exp (eps / 2) - 1)

/-- Embedding of `Server.aggregate(k, eps)`: for each time step `t`,
scale the sum of the folded covering set's node values by the
bias-correction factor.  The source raises no exception on any `eps`;
at `eps = 0` the numpy float division silently produces `inf`, and for
`eps < 0` a negative scale. -/
noncomputable def Server.aggregate (srv : Server) (k : ℕ) (eps : ℝ) : List ℝ :=
  (List.range srv.d).map (fun t =>
    scalingFactor k srv.d eps *
      ((Finset.sum (coverFor srv.T srv.d t) (tval srv.T) : ℤ) : ℝ))

/-- Embedding of `compute_x(dx)`: read the base value off the first
nonzero entry of `dx` (raising `IndexError`, modelled `none`, when `dx`
is all zero) and rebuild the value sequence by running sums. -/
def compute_x (dx : List ℤ) : Option (List ℤ) :=
  match dx.find? (fun v => decide (v ≠ 0)) with
  | none => none
  | some v => some (List.scanl (fun a b => a + b) (Int.tdiv (-v + 1) 2) dx)

/-! ### Branch equations and step lemmas for `Client.update` -/

theorem iAfter_ge (s : Client) (j : ℕ) : s.i ≤ Client.iAfter s j := by
  unfold Client.iAfter
  split_ifs <;> omega

/-- Branch equation: milestone reached and a captured change pending —
the randomized-response branch. -/
theorem step_rr (s : Client) (j : ℕ) (t : ℤ) (r : Draw)
    (hm : (t + 1) % ((2 : ℤ) ^ s.hc) = 0) (hcz : Client.cAfter s j ≠ 0) :
    Client.step s j t r =
      ({ s with c := 0, i := Client.iAfter s j },
        some (s.hc, t, r.coin * Client.cAfter s j), true) := by
  unfold Client.step
  rw [if_pos hm, if_pos hcz]

/-- Branch equation: milestone reached with no pending change — the
noise report branch. -/
theorem step_noiseBranch (s : Client) (j : ℕ) (t : ℤ) (r : Draw)
    (hm : (t + 1) % ((2 : ℤ) ^ s.hc) = 0) (hcz : ¬Client.cAfter s j ≠ 0) :
    Client.step s j t r =
      ({ s with c := Client.cAfter s j, i := Client.iAfter s j },
        some (s.hc, t, if s.hideZero then r.noise else 0), false) := by
  unfold Client.step
  rw [if_pos hm, if_neg hcz]

/-- Branch equation: no milestone — no report is emitted. -/
theorem step_silent (s : Client) (j : ℕ) (t : ℤ) (r : Draw)
    (hm : ¬(t + 1) % ((2 : ℤ) ^ s.hc) = 0) :
    Client.step s j t r =
      ({ s with c := Client.cAfter s j, i := Client.iAfter s j },
        none, false) := by
  unfold Client.step
  rw [if_neg hm]

theorem update_ok_iff (s : Client) (t : ℤ) (r : Draw)
    (res : Client × Option Report × Bool) :
    Client.update s t r = Except.ok res ↔
      ∃ j, pyIndex s.dx.length t = some j ∧ res = Client.step s j t r := by
  unfold Client.update
  cases hpi : pyIndex s.dx.length t <;> simp [hpi, eq_comm]

/-- Whenever a change is pending (`cAfter ≠ 0`) in a state satisfying
the counter invariant, the designated index is already strictly below
the advanced counter. -/
theorem cAfter_pending (s : Client) (j : ℕ)
    (hK : s.c ≠ 0 → s.ic < s.i) (hcz : Client.cAfter s j ≠ 0) :
    s.ic < Client.iAfter s j := by
  by_cases hdx : s.dx.getD j 0 ≠ 0
  · by_cases hii : s.i = s.ic
    · unfold Client.iAfter
      rw [if_pos hdx]
      omega
    · unfold Client.cAfter at hcz
      rw [if_neg (by tauto)] at hcz
      have := hK hcz
      unfold Client.iAfter
      rw [if_pos hdx]
      omega
  · unfold Client.cAfter at hcz
    rw [if_neg (by tauto)] at hcz
    have := hK hcz
    unfold Client.iAfter
    rw [if_neg hdx]
    omega

/-- A client that has already disclosed (counter `c` cleared and `i`
strictly past `ic`) stays in that situation and never takes the
randomized-response branch. -/
theorem step_dead (s : Client) (j : ℕ) (t : ℤ) (r : Draw)
    (h1 : s.c = 0) (h2 : s.ic < s.i) :
    (Client.step s j t r).1.c = 0 ∧
      (Client.step s j t r).1.ic < (Client.step s j t r).1.i ∧
      (Client.step s j t r).2.2 = false := by
  have hca : Client.cAfter s j = 0 := by
    unfold Client.cAfter
    rw [if_neg (by rintro ⟨-, hii⟩; omega)]
    exact h1
  have hia := iAfter_ge s j
  by_cases hm : (t + 1) % ((2 : ℤ) ^ s.hc) = 0
  · rw [step_noiseBranch s j t r hm (by simp [hca])]
    exact ⟨hca, lt_of_lt_of_le h2 hia, rfl⟩
  · rw [step_silent s j t r hm]
    exact ⟨hca, lt_of_lt_of_le h2 hia, rfl⟩

/-- If the randomized-response branch runs, the successor state is
"dead": `c` is cleared and `ic < i`. -/
theorem step_disclosed (s : Client) (j : ℕ) (t : ℤ) (r : Draw)
    (hK : s.c ≠ 0 → s.ic < s.i) (hb : (Client.step s j t r).2.2 = true) :
    (Client.step s j t r).1.c = 0 ∧
      (Client.step s j t r).1.ic < (Client.step s j t r).1.i := by
  by_cases hm : (t + 1) % ((2 : ℤ) ^ s.hc) = 0
  · by_cases hcz : Client.cAfter s j ≠ 0
    · rw [step_rr s j t r hm hcz]
      exact ⟨rfl, cAfter_pending s j hK hcz⟩
    · rw [step_noiseBranch s j t r hm hcz] at hb
      exact absurd hb (by simp)
  · rw [step_silent s j t r hm] at hb
    exact absurd hb (by simp)

/-- If the randomized-response branch does not run, the counter
invariant `c ≠ 0 → ic < i` is preserved. -/
theorem step_quiet (s : Client) (j : ℕ) (t : ℤ) (r : Draw)
    (hK : s.c ≠ 0 → s.ic < s.i) (hb : (Client.step s j t r).2.2 = false) :
    (Client.step s j t r).1.c ≠ 0 →
      (Client.step s j t r).1.ic < (Client.step s j t r).1.i := by
  by_cases hm : (t + 1) % ((2 : ℤ) ^ s.hc) = 0
  · by_cases hcz : Client.cAfter s j ≠ 0
    · rw [step_rr s j t r hm hcz] at hb
      exact absurd hb (by simp)
    · rw [step_noiseBranch s j t r hm hcz]
      intro hc
      exact absurd hc hcz
  · rw [step_silent s j t r hm]
    intro hc
    exact cAfter_pending s j hK hc

/-- A dead client (already disclosed) never discloses again over any
remaining sequence of updates. -/
theorem run_dead (l : List (ℤ × Draw)) :
    ∀ s : Client, s.c = 0 → s.ic < s.i → (Client.run s l).2.2 = 0 := by
  induction l with
  | nil =>
    intro s _ _
    rfl
  | cons p rest ih =>
    obtain ⟨t, r⟩ := p
    intro s h1 h2
    simp only [Client.run]
    cases hpi : pyIndex s.dx.length t with
    | none => simp [Client.update, hpi]
    | some j =>
      simp only [Client.update, hpi]
      have hd := step_dead s j t r h1 h2
      have hrest := ih (Client.step s j t r).1 hd.1 hd.2.1
      simp [hrest, hd.2.2]

/-- Core of the at-most-one-disclosure invariant: from any state
satisfying `c ≠ 0 → ic < i`, the randomized-response branch runs at
most once over any sequence of updates. -/
theorem run_atMostOne (l : List (ℤ × Draw)) :
    ∀ s : Client, (s.c ≠ 0 → s.ic < s.i) → (Client.run s l).2.2 ≤ 1 := by
  induction l with
  | nil =>
    intro s _
    exact Nat.zero_le 1
  | cons p rest ih =>
    obtain ⟨t, r⟩ := p
    intro s hK
    simp only [Client.run]
    cases hpi : pyIndex s.dx.length t with
    | none => simp [Client.update, hpi]
    | some j =>
      simp only [Client.update, hpi]
      cases hb : (Client.step s j t r).2.2 with
      | true =>
        have hd := step_disclosed s j t r hK hb
        have hrest := run_dead rest (Client.step s j t r).1 hd.1 hd.2
        simp [hrest, hb]
      | false =>
        have hrest := ih (Client.step s j t r).1 (step_quiet s j t r hK hb)
        simp [hb]
        omega

/-- When a report is emitted without the randomized-response branch, its
value is the `{-1,+1}` noise draw (or the constant `0` when `hide_zero`
is off) — a quantity computed without reference to `dx`. -/
theorem update_noise_value (s : Client) (t : ℤ) (r : Draw) (s2 : Client)
    (h : ℕ) (t2 u : ℤ)
    (heq : Client.update s t r = Except.ok (s2, some (h, t2, u), false)) :
    u = if s.hideZero then r.noise else 0 := by
  obtain ⟨j, -, hst⟩ := (update_ok_iff s t r _).1 heq
  by_cases hm : (t + 1) % ((2 : ℤ) ^ s.hc) = 0
  · by_cases hcz : Client.cAfter s j ≠ 0
    · rw [step_rr s j t r hm hcz] at hst
      simp [Prod.ext_iff] at hst
    · rw [step_noiseBranch s j t r hm hcz] at hst
      simp only [Prod.mk.injEq, Option.some.injEq] at hst
      exact hst.2.1.2.2
  · rw [step_silent s j t r hm] at hst
    simp [Prod.ext_iff] at hst

/-- Claim C1: for every client and every sequence of `update` calls
between two resets, the randomized-response branch runs at most once —
so at most one emitted report carries the captured true change value
`c` (which is re-zeroed on disclosure) — and every other non-`None`
report's value `u` is the `{-1,+1}` noise draw (or the constant `0`
when `hide_zero` is off), computed without reference to the secret
vector `dx`. -/
theorem claim_C1 (dx : List ℤ) (hz cl : Bool) (ric rhc : ℕ)
    (l : List (ℤ × Draw)) :
    (Client.run (Client.setup dx hz cl ric rhc) l).2.2 ≤ 1 ∧
    ∀ (s s2 : Client) (t : ℤ) (r : Draw) (h : ℕ) (t2 u : ℤ),
      Client.update s t r = Except.ok (s2, some (h, t2, u), false) →
        u = if s.hideZero then r.noise else 0 := by
  constructor
  · apply run_atMostOne
    intro hc0
    exact absurd rfl hc0
  · intro s s2 t r h t2 u heq
    exact update_noise_value s t r s2 h t2 u heq

/-- Concrete instance of claim C1: a client over `dx = [1, -1]` with
designated change index `1` run for one step — the disclosure count is
at most one and the emitted noise report carries the noise draw `5`. -/
theorem claim_C1_witness :
    (Client.run (Client.setup [1, -1] true false 1 0)
        [((0 : ℤ), ⟨5, 1⟩)]).2.2 ≤ 1 ∧
    (5 : ℤ) = (if (Client.setup [1, -1] true false 1 0).hideZero
      then (5 : ℤ) else 0) := by
  constructor
  · exact (claim_C1 [1, -1] true false 1 0 [((0 : ℤ), ⟨5, 1⟩)]).1
  · exact (claim_C1 [1, -1] true false 1 0 [((0 : ℤ), ⟨5, 1⟩)]).2
      (Client.setup [1, -1] true false 1 0)
      ({ Client.setup [1, -1] true false 1 0 with i := 1 })
      0 ⟨5, 1⟩ 0 0 5 (by rfl)

/-! ### Report emission pattern (claim C3) -/

theorem step_emits (s : Client) (j : ℕ) (t : ℤ) (r : Draw) :
    (Client.step s j t r).2.1.isSome
      = decide ((t + 1) % ((2 : ℤ) ^ s.hc) = 0) := by
  by_cases hm : (t + 1) % ((2 : ℤ) ^ s.hc) = 0
  · by_cases hcz : Client.cAfter s j ≠ 0
    · rw [step_rr s j t r hm hcz]
      simp [hm]
    · rw [step_noiseBranch s j t r hm hcz]
      simp [hm]
  · rw [step_silent s j t r hm]
    simp [hm]

theorem step_hc (s : Client) (j : ℕ) (t : ℤ) (r : Draw) :
    (Client.step s j t r).1.hc = s.hc := by
  unfold Client.step
  split_ifs <;> rfl

theorem step_dx (s : Client) (j : ℕ) (t : ℤ) (r : Draw) :
    (Client.step s j t r).1.dx = s.dx := by
  unfold Client.step
  split_ifs <;> rfl

theorem pyIndex_inRange (n : ℕ) (t : ℤ) (h1 : 0 ≤ t) (h2 : t < (n : ℤ)) :
    pyIndex n t = some t.toNat := by
  unfold pyIndex
  rw [if_pos ⟨h1, h2⟩]

/-- Over a run whose time steps are all in range, a result is emitted at
a step exactly when `(t+1) % 2^hc = 0` for the (constant) level `hc`. -/
theorem run_outs (l : List (ℤ × Draw)) :
    ∀ s : Client, (∀ p ∈ l, 0 ≤ p.1 ∧ p.1 < (s.dx.length : ℤ)) →
      ((Client.run s l).2.1).map Option.isSome
        = l.map (fun p => decide ((p.1 + 1) % ((2 : ℤ) ^ s.hc) = 0)) := by
  induction l with
  | nil =>
    intro s _
    rfl
  | cons p rest ih =>
    obtain ⟨t, r⟩ := p
    intro s hin
    have ht := hin (t, r) (List.mem_cons_self _ _)
    have hrest : ∀ q ∈ rest,
        0 ≤ q.1 ∧ q.1 < (((Client.step s t.toNat t r).1.dx.length : ℕ) : ℤ) := by
      intro q hq
      rw [step_dx]
      exact hin q (List.mem_cons_of_mem _ hq)
    simp only [Client.run, Client.update,
      pyIndex_inRange s.dx.length t ht.1 ht.2]
    simp only [List.map_cons]
    rw [ih ((Client.step s t.toNat t r).1) hrest]
    simp only [step_emits, step_hc]

theorem countP_eq_of_map_eq {α β : Type} (p : α → Bool) (q : β → Bool) :
    ∀ (l1 : List α) (l2 : List β), l1.map p = l2.map q →
      l1.countP p = l2.countP q := by
  intro l1
  induction l1 with
  | nil =>
    intro l2 h
    cases l2 with
    | nil => rfl
    | cons b l2 => simp at h
  | cons a l1 ih =>
    intro l2 h
    cases l2 with
    | nil => simp at h
    | cons b l2 =>
      simp only [List.map_cons, List.cons.injEq] at h
      rw [List.countP_cons, List.countP_cons, ih l2 h.2, h.1]

/-- Among `t = 0, …, d-1`, exactly `⌊d / m⌋` values satisfy
`(t+1) % m = 0`. -/
theorem range_countP_mod (m : ℕ) :
    ∀ d : ℕ, (List.range d).countP (fun t => decide ((t + 1) % m = 0))
      = d / m := by
  intro d
  induction d with
  | zero => simp
  | succ n ih =>
    rw [List.range_succ, List.countP_append, ih, Nat.succ_div]
    have hdvd : (m ∣ n + 1) ↔ ((n + 1) % m = 0) :=
      Nat.dvd_iff_mod_eq_zero
    by_cases h : (n + 1) % m = 0
    · simp [List.countP_cons, h, hdvd]
    · simp [List.countP_cons, h, hdvd]

theorem emod_two_pow_iff (idx hc : ℕ) :
    (((idx : ℤ) + 1) % ((2 : ℤ) ^ hc) = 0) ↔ ((idx + 1) % 2 ^ hc = 0) := by
  have hcast : ((idx : ℤ) + 1) % ((2 : ℤ) ^ hc)
      = (((idx + 1) % 2 ^ hc : ℕ) : ℤ) := by
    push_cast
    rfl
  rw [hcast]
  exact Int.natCast_eq_zero

/-- Claim C3: for every client with chosen level `hc = h*`, driving
`update` over the horizon `t = 0, …, d-1` emits a non-`None` result at
step `t` exactly when `(t+1) % 2^h* = 0`, and so on exactly
`⌊d / 2^h*⌋` of the `d` calls. -/
theorem claim_C3 (s : Client) (rands : ℕ → Draw) :
    (∀ idx, idx < s.dx.length →
      ((Client.run s ((List.range s.dx.length).map
          (fun t : ℕ => ((t : ℤ), rands t)))).2.1.get? idx).map Option.isSome
        = some (decide ((idx + 1) % 2 ^ s.hc = 0))) ∧
    ((Client.run s ((List.range s.dx.length).map
        (fun t : ℕ => ((t : ℤ), rands t)))).2.1.filter Option.isSome).length
      = s.dx.length / 2 ^ s.hc := by
  have hin : ∀ p ∈ (List.range s.dx.length).map
      (fun t : ℕ => ((t : ℤ), rands t)), 0 ≤ p.1 ∧ p.1 < (s.dx.length : ℤ) := by
    intro p hp
    simp only [List.mem_map, List.mem_range] at hp
    obtain ⟨t, ht, rfl⟩ := hp
    constructor
    · exact Int.natCast_nonneg t
    · show (t : ℤ) < (s.dx.length : ℤ)
      exact_mod_cast ht
  have hmap := run_outs _ s hin
  rw [List.map_map] at hmap
  constructor
  · intro idx hidx
    have h1 := congrArg (fun xs => xs.get? idx) hmap
    simp only [List.get?_map, List.get?_range hidx, Option.map_some] at h1
    rw [h1]
    exact congrArg some (decide_eq_decide.mpr (emod_two_pow_iff idx s.hc))
  · rw [← List.countP_eq_length_filter]
    have hc1 := countP_eq_of_map_eq Option.isSome
      ((fun p : ℤ × Draw => decide ((p.1 + 1) % ((2 : ℤ) ^ s.hc) = 0)) ∘
        (fun t : ℕ => ((t : ℤ), rands t)))
      _ _ hmap
    rw [hc1]
    have hc2 : ∀ t ∈ List.range s.dx.length,
        (((fun p : ℤ × Draw => decide ((p.1 + 1) % ((2 : ℤ) ^ s.hc) = 0)) ∘
          (fun t : ℕ => ((t : ℤ), rands t))) t = true)
        ↔ ((fun t : ℕ => decide ((t + 1) % 2 ^ s.hc = 0)) t = true) := by
      intro t _
      simp only [Function.comp_apply, decide_eq_true_eq]
      exact emod_two_pow_iff t s.hc
    rw [List.countP_congr hc2]
    exact range_countP_mod (2 ^ s.hc) s.dx.length

/-- A concrete client reporting at tree level 1 over a horizon of
length 2, with the designated change at index 0. -/
def clientL1 : Client :=
  { dx := [1, 0], hideZero := true, chooseLevel := true,
    ic := 0, hc := 1, i := 0, c := 0, k := 1 }

/-- A constant stream of random draws (all `+1`). -/
def drawOne : ℕ → Draw := fun _ => ⟨1, 1⟩

/-- Concrete instance of claim C3: a level-1 client over a horizon of
length 2 emits no report at step 0 and exactly `⌊2 / 2⌋ = 1` report in
total. -/
theorem claim_C3_witness :
    ((Client.run clientL1 ((List.range clientL1.dx.length).map
        (fun t : ℕ => ((t : ℤ), drawOne t)))).2.1.get? 0).map Option.isSome
      = some (decide ((0 + 1) % 2 ^ clientL1.hc = 0)) ∧
    ((Client.run clientL1 ((List.range clientL1.dx.length).map
        (fun t : ℕ => ((t : ℤ), drawOne t)))).2.1.filter Option.isSome).length
      = clientL1.dx.length / 2 ^ clientL1.hc := by
  exact ⟨(claim_C3 clientL1 drawOne).1 0 (by decide),
    (claim_C3 clientL1 drawOne).2⟩

/-! ### Honest single-client round trip (claim C2) -/

theorem countNonzero_append (a b : List ℤ) :
    countNonzero (a ++ b) = countNonzero a + countNonzero b := by
  unfold countNonzero
  rw [List.filter_append, List.length_append]

theorem countNonzero_take_succ (dx : List ℤ) (n : ℕ) (h : n < dx.length) :
    countNonzero (dx.take (n + 1))
      = countNonzero (dx.take n) + (if dx.getD n 0 ≠ 0 then 1 else 0) := by
  rw [List.take_succ, countNonzero_append]
  congr 1
  cases hg : dx[n]? with
  | none =>
    rw [List.getElem?_eq_none_iff] at hg
    omega
  | some v =>
    have hv : dx.getD n 0 = v := by
      rw [List.getD_eq_getElem?_getD, hg]
      rfl
    rw [hv]
    unfold countNonzero
    by_cases hz : v = 0 <;> simp [hz]

theorem countNonzero_take_le (dx : List ℤ) (n : ℕ) :
    countNonzero (dx.take n) ≤ countNonzero dx := by
  conv_rhs => rw [← List.take_append_drop n dx]
  rw [countNonzero_append]
  omega

/-- On vectors with entries in `{-1, 0, 1}` the 1-norm used by
`Client.reset` to compute `k` coincides with the nonzero count. -/
theorem norm1_eq_countNonzero (dx : List ℤ) (h : ∀ v ∈ dx, v.natAbs ≤ 1) :
    norm1 dx = countNonzero dx := by
  induction dx with
  | nil => rfl
  | cons v rest ih =>
    have hv := h v (List.mem_cons_self _ _)
    have hrest := ih (fun w hw => h w (List.mem_cons_of_mem _ hw))
    unfold norm1 countNonzero at hrest ⊢
    simp only [List.map_cons, List.sum_cons, List.filter_cons]
    by_cases hz : v = 0
    · subst hz
      simpa using hrest
    · have hone : v.natAbs = 1 := by omega
      have hfil : List.filter (fun v => decide (v ≠ 0)) (v :: rest)
          = v :: List.filter (fun v => decide (v ≠ 0)) rest := by
        simp [List.filter_cons, hz]
      rw [if_pos (by simp [hz] : decide (v ≠ 0) = true), hone,
        List.length_cons]
      omega

/-- Honest-mode run: a client with `hide_zero` off, level fixed at `0`,
designated index `0`, randomized-response coin pinned to `+1`, and at
most one change in `dx` reports its true `dx` value at every remaining
step of the horizon. -/
theorem honest_run (nz : ℤ) :
    ∀ (m t0 : ℕ) (s : Client),
      s.hc = 0 → s.hideZero = false → s.ic = 0 → s.c = 0 →
      s.i = countNonzero (s.dx.take t0) →
      countNonzero s.dx ≤ 1 →
      t0 + m = s.dx.length →
      (Client.run s ((List.range' t0 m).map
          (fun t : ℕ => ((t : ℤ), (⟨nz, 1⟩ : Draw))))).2.1
        = (List.range' t0 m).map
            (fun t : ℕ => some ((0 : ℕ), (t : ℤ), s.dx.getD t 0)) := by
  intro m
  induction m with
  | zero =>
    intro t0 s _ _ _ _ _ _ _
    rfl
  | succ mm ih =>
    intro t0 s hhc hhz hic hc0 hi hcnt hlen
    have ht0 : t0 < s.dx.length := by omega
    rw [List.range'_succ]
    simp only [List.map_cons]
    have hpi : pyIndex s.dx.length (t0 : ℤ) = some ((t0 : ℤ)).toNat :=
      pyIndex_inRange _ _ (Int.natCast_nonneg t0) (by exact_mod_cast ht0)
    simp only [Client.run, Client.update, hpi]
    have hm : ((t0 : ℤ) + 1) % ((2 : ℤ) ^ s.hc) = 0 := by
      rw [hhc]
      simp
    have htn : ((t0 : ℤ)).toNat = t0 := Int.toNat_natCast t0
    by_cases hdx : s.dx.getD t0 0 = 0
    · have hca : Client.cAfter s ((t0 : ℤ)).toNat = 0 := by
        unfold Client.cAfter
        rw [htn, if_neg (fun hcon => hcon.1 hdx)]
        exact hc0
      have hia : Client.iAfter s ((t0 : ℤ)).toNat = s.i := by
        unfold Client.iAfter
        rw [htn, if_neg (fun hcon => hcon hdx)]
      rw [step_noiseBranch _ _ _ _ hm (fun hcon => hcon hca)]
      have htail := ih (t0 + 1)
        { s with
          c := Client.cAfter s ((t0 : ℤ)).toNat
          i := Client.iAfter s ((t0 : ℤ)).toNat }
        hhc hhz hic hca
        (by
          show Client.iAfter s ((t0 : ℤ)).toNat
            = countNonzero (s.dx.take (t0 + 1))
          rw [hia, countNonzero_take_succ s.dx t0 ht0,
            if_neg (fun hcon => hcon hdx)]
          omega)
        hcnt (by show t0 + 1 + mm = s.dx.length; omega)
      simp only [htail]
      simp [hhc, hhz, hdx]
      exact (by simpa using hdx : s.dx[t0]?.getD 0 = 0).symm
    · have hcnt0 : countNonzero (s.dx.take t0) = 0 := by
        have h1 := countNonzero_take_succ s.dx t0 ht0
        rw [if_pos hdx] at h1
        have h2 := countNonzero_take_le s.dx (t0 + 1)
        omega
      have hca : Client.cAfter s ((t0 : ℤ)).toNat = s.dx.getD t0 0 := by
        unfold Client.cAfter
        rw [htn, if_pos ⟨hdx, by omega⟩]
      have hia : Client.iAfter s ((t0 : ℤ)).toNat = s.i + 1 := by
        unfold Client.iAfter
        rw [htn, if_pos hdx]
      rw [step_rr _ _ _ _ hm (by rw [hca]; exact hdx)]
      have htail := ih (t0 + 1)
        { s with c := 0, i := Client.iAfter s ((t0 : ℤ)).toNat }
        hhc hhz hic rfl
        (by
          show Client.iAfter s ((t0 : ℤ)).toNat
            = countNonzero (s.dx.take (t0 + 1))
          rw [hia, countNonzero_take_succ s.dx t0 ht0, if_pos hdx]
          omega)
        hcnt (by show t0 + 1 + mm = s.dx.length; omega)
      simp only [htail]
      simp [hhc, hca]
      exact (by simpa using hca)

/-- Claim C2 (amended): with `hide_zero` and `choose_level` both off
(level fixed at 0, a report every step) and the randomized-response coin
pinned to `+1` (the `eps → ∞` limit), a client whose `dx` has **at most
one** nonzero entry reports `(0, t, dx[t])` at every step `t`.  (For a
general `dx` this fails: only the designated change is disclosed; see
the counterexample.) -/
theorem claim_C2_amended (dx : List ℤ) (nz : ℤ) (ric rhc : ℕ)
    (h1 : ∀ v ∈ dx, v.natAbs ≤ 1) (h2 : countNonzero dx ≤ 1) :
    (Client.run (Client.setup dx false false ric rhc)
        ((List.range dx.length).map
          (fun t : ℕ => ((t : ℤ), (⟨nz, 1⟩ : Draw))))).2.1
      = (List.range dx.length).map
          (fun t : ℕ => some ((0 : ℕ), (t : ℤ), dx.getD t 0)) := by
  have hk : norm1 dx = countNonzero dx := norm1_eq_countNonzero dx h1
  have hic : (Client.setup dx false false ric rhc).ic = 0 := by
    show (if 0 < norm1 dx then ric % norm1 dx else 0) = 0
    rw [hk]
    by_cases hcz : 0 < countNonzero dx
    · rw [if_pos hcz]
      have hone : countNonzero dx = 1 := by omega
      rw [hone, Nat.mod_one]
    · rw [if_neg hcz]
  have hmain := honest_run nz dx.length 0
    (Client.setup dx false false ric rhc) rfl rfl hic rfl rfl h2
    (by show 0 + dx.length = dx.length; omega)
  rw [List.range_eq_range']
  exact hmain

/-- Counterexample to claim C2 as stated: a client over `dx = [1, -1]`
(`hide_zero` and `choose_level` off, designated change index 0,
randomized-response coin pinned to `+1`) reports `(0, 1, 0)` at step 1,
not `(0, 1, dx[1]) = (0, 1, -1)` — a non-designated change is replaced
by `0`, so the reports do *not* equal `dx` at every step. -/
theorem claim_C2_counterexample :
    (Client.run (Client.setup [1, -1] false false 0 0)
        [((0 : ℤ), ⟨1, 1⟩), ((1 : ℤ), ⟨1, 1⟩)]).2.1
      = [some ((0 : ℕ), (0 : ℤ), (1 : ℤ)), some ((0 : ℕ), (1 : ℤ), (0 : ℤ))]
    ∧ (([1, -1] : List ℤ).getD 1 0 = (-1 : ℤ))
    ∧ ((0 : ℤ) ≠ (-1 : ℤ)) := by
  refine ⟨by decide, by decide, by decide⟩

/-- Concrete instance of the amended claim C2: a single-change client
over `dx = [0, 1, 0]` reports its true values at all three steps. -/
theorem claim_C2_witness :
    (Client.run (Client.setup [0, 1, 0] false false 0 0)
        ((List.range ([0, 1, 0] : List ℤ).length).map
          (fun t : ℕ => ((t : ℤ), (⟨7, 1⟩ : Draw))))).2.1
      = (List.range ([0, 1, 0] : List ℤ).length).map
          (fun t : ℕ => some ((0 : ℕ), (t : ℤ),
            ([0, 1, 0] : List ℤ).getD t 0)) :=
  claim_C2_amended [0, 1, 0] 7 0 0 (by decide) (by decide)

/-- Claim C9: on vectors with entries in `{-1, 0, 1}`, `reset(dx)`
recomputes `k` as exactly the number of nonzero entries (the source's
1-norm coincides with the nonzero count under this precondition), and
`reset()` with no argument retains the previous `dx` while recomputing
the same `k`. -/
theorem claim_C9 (s : Client) (dx : List ℤ) (ric rhc : ℕ)
    (h1 : ∀ v ∈ dx, v.natAbs ≤ 1) (h2 : ∀ v ∈ s.dx, v.natAbs ≤ 1) :
    (Client.reset s (some dx) ric rhc).k = countNonzero dx ∧
    (Client.reset s none ric rhc).dx = s.dx ∧
    (Client.reset s none ric rhc).k = countNonzero s.dx := by
  refine ⟨?_, rfl, ?_⟩
  · show norm1 dx = countNonzero dx
    exact norm1_eq_countNonzero dx h1
  · show norm1 s.dx = countNonzero s.dx
    exact norm1_eq_countNonzero s.dx h2

/-- Concrete instance of claim C9: resetting a client to
`dx = [1, 0, -1]` yields `k = 2`, and an argumentless reset keeps
`dx = [1]` with `k = 1`. -/
theorem claim_C9_witness :
    (Client.reset (Client.setup [1] true false 0 0)
        (some [1, 0, -1]) 0 0).k = countNonzero [1, 0, -1] ∧
    (Client.reset (Client.setup [1] true false 0 0) none 0 0).dx
      = (Client.setup [1] true false 0 0).dx ∧
    (Client.reset (Client.setup [1] true false 0 0) none 0 0).k
      = countNonzero (Client.setup [1] true false 0 0).dx :=
  claim_C9 (Client.setup [1] true false 0 0) [1, 0, -1] 0 0
    (by decide) (by decide)

/-- Claim C10: `compute_x(dx)` fails (Python `IndexError` from indexing
the empty array of nonzero positions, modelled as `none`) exactly when
`dx` is entirely zero; it never substitutes a default base value.
Contrapositively it returns a reconstructed sequence exactly when `dx`
has at least one nonzero entry. -/
theorem claim_C10 (dx : List ℤ) :
    compute_x dx = none ↔ ∀ v ∈ dx, v = 0 := by
  unfold compute_x
  split
  next hf =>
    constructor
    · intro _ v hv
      have hnp := List.find?_eq_none.1 hf v hv
      simpa using hnp
    · intro _
      rfl
  next v hf =>
    constructor
    · intro h
      exact absurd h (by simp)
    · intro hall
      have hv := List.find?_some hf
      have hmem := List.mem_of_find?_eq_some hf
      rw [hall v hmem] at hv
      simp at hv

/-- Concrete instance of claim C10: the all-zero vector makes
`compute_x` fail. -/
theorem claim_C10_witness : compute_x [0, 0, 0] = none :=
  (claim_C10 [0, 0, 0]).2 (by decide)

/-- Python indexing fails exactly when `t` is outside `[-n, n)`. -/
theorem pyIndex_eq_none_iff (n : ℕ) (t : ℤ) :
    pyIndex n t = none ↔ (t < -(n : ℤ) ∨ (n : ℤ) ≤ t) := by
  unfold pyIndex
  split_ifs with ha hb
  · simp only [reduceCtorEq, false_iff]
    omega
  · simp only [reduceCtorEq, false_iff]
    omega
  · simp only [true_iff]
    omega

/-- Claim C8 (amended): the code defines no `OutOfRangeError`; `update`
fails (with Python's `IndexError`) exactly when `t < -d` or `t ≥ d`.
For `-d ≤ t < 0` — which is also outside `[0, d)` — it silently
computes a result through Python's negative indexing instead of
raising. -/
theorem claim_C8_amended (s : Client) (t : ℤ) (r : Draw) :
    Client.update s t r = Except.error ()
      ↔ (t < -(s.dx.length : ℤ) ∨ (s.dx.length : ℤ) ≤ t) := by
  unfold Client.update
  cases hpi : pyIndex s.dx.length t with
  | none =>
    exact iff_of_true rfl ((pyIndex_eq_none_iff s.dx.length t).1 hpi)
  | some j =>
    refine iff_of_false (by simp) ?_
    intro hcon
    rw [(pyIndex_eq_none_iff s.dx.length t).2 hcon] at hpi
    exact absurd hpi (by simp)

/-- Counterexample to claim C8 as stated: `t = -1` is outside `[0, d)`
for the client over `dx = [1, 0]` (so the claim demands an error), yet
`update` silently computes the report `(0, -1, 0)` via Python's
negative indexing of `dx[-1]`. -/
theorem claim_C8_counterexample :
    Client.update (Client.setup [1, 0] false false 0 0) (-1) ⟨1, 1⟩
      = Except.ok (Client.setup [1, 0] false false 0 0,
          some ((0 : ℕ), (-1 : ℤ), (0 : ℤ)), false) ∧
    (-1 : ℤ) < 0 := by
  constructor
  · rfl
  · decide

/-- Concrete instance of the amended claim C8: `t = 5` on a horizon of
length 2 raises. -/
theorem claim_C8_witness :
    Client.update (Client.setup [1, 0] false false 0 0) 5 ⟨1, 1⟩
      = Except.error () :=
  (claim_C8_amended (Client.setup [1, 0] false false 0 0) 5 ⟨1, 1⟩).2
    (by decide)

/-! ### Level choice (claim C6) -/

theorem clog2_eq_succ (m d : ℕ) (h1 : d ≤ 2 ^ (m + 1)) (h2 : 2 ^ m < d) :
    Nat.clog 2 d = m + 1 :=
  le_antisymm ((Nat.le_pow_iff_clog_le one_lt_two).1 h1)
    ((Nat.pow_lt_iff_lt_clog one_lt_two).1 h2)

theorem tree_depth_list_three : tree_depth_list 3 = [0, 1, 2] := by
  unfold tree_depth_list
  rw [clog2_eq_succ 1 3 (by norm_num) (by norm_num)]
  rfl

/-- Claim C6 (amended): with `choose_level` on, the level is drawn from
`tree_depth_list d = [0, …, ⌈log2 d⌉]` — a duplicate-free list, so the
uniform draw of `np.random.choice` is uniform over
`{0, …, Nat.clog 2 d}`; the bound `⌈log2 d⌉` equals `⌊log2 d⌋` only
when `d` is a power of two.  With `choose_level` off the level is `0`,
and every emitted report carries the client's (fixed) level `hc`. -/
theorem claim_C6_amended (d : ℕ) (_hd : 1 ≤ d) :
    (∀ r, Client.getLevel true d r ≤ Nat.clog 2 d) ∧
    (∀ h, h ≤ Nat.clog 2 d → ∃ r, Client.getLevel true d r = h) ∧
    (tree_depth_list d).Nodup ∧
    (∀ h, h ∈ tree_depth_list d ↔ h ≤ Nat.clog 2 d) ∧
    (∀ r, Client.getLevel false d r = 0) ∧
    (∀ (s : Client) (t : ℤ) (rnd : Draw)
        (res : Client × Option Report × Bool) (rep : Report),
      Client.update s t rnd = Except.ok res → res.2.1 = some rep →
        rep.1 = s.hc) := by
  have hlen : (tree_depth_list d).length = Nat.clog 2 d + 1 :=
    List.length_range _
  have hget : ∀ i, i < Nat.clog 2 d + 1 → (tree_depth_list d).getD i 0 = i := by
    intro i hi
    show (List.range (Nat.clog 2 d + 1)).getD i 0 = i
    rw [List.getD_eq_getElem?_getD, List.getElem?_range hi]
    rfl
  have hlev : ∀ r : ℕ, Client.getLevel true d r = r % (Nat.clog 2 d + 1) := by
    intro r
    show (tree_depth_list d).getD (r % (tree_depth_list d).length) 0 = _
    rw [hlen]
    exact hget _ (Nat.mod_lt r (Nat.succ_pos _))
  refine ⟨?_, ?_, ?_, ?_, ?_, ?_⟩
  · intro r
    rw [hlev r]
    have hb : r % (Nat.clog 2 d + 1) < Nat.clog 2 d + 1 :=
      Nat.mod_lt r (by omega)
    omega
  · intro h hh
    exact ⟨h, by rw [hlev h, Nat.mod_eq_of_lt (by omega)]⟩
  · exact List.nodup_range _
  · intro h
    show h ∈ List.range (Nat.clog 2 d + 1) ↔ _
    rw [List.mem_range]
    omega
  · intro r
    rfl
  · intro s t rnd res rep hok hrep
    obtain ⟨j, -, hst⟩ := (update_ok_iff s t rnd _).1 hok
    rw [hst] at hrep
    by_cases hm : (t + 1) % ((2 : ℤ) ^ s.hc) = 0
    · by_cases hcz : Client.cAfter s j ≠ 0
      · rw [step_rr s j t rnd hm hcz] at hrep
        simp only [Option.some.injEq] at hrep
        rw [← hrep]
      · rw [step_noiseBranch s j t rnd hm hcz] at hrep
        simp only [Option.some.injEq] at hrep
        rw [← hrep]
    · rw [step_silent s j t rnd hm] at hrep
      simp at hrep

/-- Counterexample to claim C6 as stated: for the non-power-of-two
horizon `d = 3`, `tree_depth_list 3 = np.arange(log2(3) + 1) =
[0, 1, 2]`, so a client can draw level `2`, which exceeds
`⌊log2 3⌋ = 1` — the support is `{0, …, ⌈log2 d⌉}`, not
`{0, …, ⌊log2 d⌋}`. -/
theorem claim_C6_counterexample :
    Client.getLevel true 3 2 = 2 ∧ Nat.log 2 3 = 1 ∧
      ¬(Client.getLevel true 3 2 ≤ Nat.log 2 3) := by
  have hlog : Nat.log 2 3 = 1 :=
    Nat.log_eq_of_pow_le_of_lt_pow (by norm_num) (by norm_num)
  have hlev : Client.getLevel true 3 2 = 2 := by
    show (tree_depth_list 3).getD (2 % (tree_depth_list 3).length) 0 = 2
    rw [tree_depth_list_three]
    rfl
  exact ⟨hlev, hlog, by omega⟩

/-- Concrete instance of the amended claim C6 at `d = 3`: every drawn
level is at most `⌈log2 3⌉ = 2`, and a client with `choose_level` off
gets level `0`. -/
theorem claim_C6_witness :
    Client.getLevel true 3 7 ≤ Nat.clog 2 3 ∧
      Client.getLevel false 3 7 = 0 :=
  ⟨(claim_C6_amended 3 (by norm_num)).1 7,
    (claim_C6_amended 3 (by norm_num)).2.2.2.2.1 7⟩

/-! ### Server collection (claim C5) -/

theorem collectStep_none (T : TMap) : collectStep T none = T := rfl

theorem collectStep_some (T : TMap) (h : ℕ) (tr u : ℤ) :
    collectStep T (some (h, tr, u)) = bump T (reportKey h tr) u := rfl

/-- Characterization of the `collect` fold: the value at `key` is
untouched when no report of the batch maps to `key` (in particular for
an empty batch or `None` entries), and otherwise is the old value (read
as `0` when absent) plus the sum of the matching reports' values. -/
theorem collect_foldl (reports : List (Option Report)) :
    ∀ (T : TMap) (key : Key),
      (reports.foldl collectStep T) key =
        if ((reports.filterMap id).filter
            (fun rep => decide (reportKey rep.1 rep.2.1 = key))) = [] then
          T key
        else some ((T key).getD 0 + keySum key reports) := by
  induction reports with
  | nil =>
    intro T key
    simp [keySum]
  | cons r rest ih =>
    intro T key
    cases r with
    | none =>
      simp only [List.foldl_cons, collectStep_none]
      rw [ih]
      have hfm : (none :: rest).filterMap (id : Option Report → Option Report)
          = rest.filterMap id := rfl
      have hks : keySum key (none :: rest) = keySum key rest := by
        unfold keySum
        rw [hfm]
      rw [hfm, hks]
    | some rep =>
      obtain ⟨h, tr, u⟩ := rep
      simp only [List.foldl_cons, collectStep_some]
      rw [ih]
      have hfm : (some (h, tr, u) :: rest).filterMap id
          = (h, tr, u) :: rest.filterMap id := by simp
      by_cases hk : reportKey h tr = key
      · have hfil : (((some (h, tr, u) :: rest).filterMap id).filter
            (fun rep => decide (reportKey rep.1 rep.2.1 = key)))
            = (h, tr, u) :: ((rest.filterMap id).filter
              (fun rep => decide (reportKey rep.1 rep.2.1 = key))) := by
          rw [hfm, List.filter_cons]
          simp [hk]
        have hbump : bump T (reportKey h tr) u key
            = some ((T key).getD 0 + u) := by
          unfold bump
          rw [if_pos hk.symm, hk]
        have hksum : keySum key (some (h, tr, u) :: rest)
            = u + keySum key rest := by
          unfold keySum
          rw [hfil]
          simp
        have hcons : ¬(((h, tr, u) :: ((rest.filterMap id).filter
            (fun rep => decide (reportKey rep.1 rep.2.1 = key)))) = []) := by
          simp
        rw [hfil, hksum]
        by_cases hrf : ((rest.filterMap id).filter
            (fun rep => decide (reportKey rep.1 rep.2.1 = key))) = []
        · rw [if_pos hrf, if_neg hcons, hbump]
          have hz : keySum key rest = 0 := by
            unfold keySum
            rw [hrf]
            rfl
          rw [hz, add_zero]
        · rw [if_neg hrf, if_neg hcons, hbump]
          simp only [Option.getD_some]
          rw [add_assoc]
      · have hfil : (((some (h, tr, u) :: rest).filterMap id).filter
            (fun rep => decide (reportKey rep.1 rep.2.1 = key)))
            = ((rest.filterMap id).filter
              (fun rep => decide (reportKey rep.1 rep.2.1 = key))) := by
          rw [hfm, List.filter_cons]
          simp [hk]
        have hbump : bump T (reportKey h tr) u key = T key := by
          unfold bump
          rw [if_neg (fun hcon => hk hcon.symm)]
        have hksum : keySum key (some (h, tr, u) :: rest)
            = keySum key rest := by
          unfold keySum
          rw [hfil]
        rw [hfil, hbump, hksum]

/-- Claim C5 (amended): `collect(t, reports)` maps each non-`None`
report `(h, t, u)` to the node key `(h+1, int((t+1) / 2^h))` — a
**floor** (Python `int()` truncation), which equals the claimed
`ceil((t+1)/2^h)` only when `2^h` divides `t+1`, as holds for every
client-generated report — and adds `u` there, reading an absent entry
as `0`; an empty batch or a `None` entry leaves `T` unchanged. -/
theorem claim_C5_amended (srv : Server) (t : ℤ)
    (reports : List (Option Report)) (key : Key) :
    (Server.collect srv t reports).T key =
      if ((reports.filterMap id).filter
          (fun rep => decide (reportKey rep.1 rep.2.1 = key))) = [] then
        srv.T key
      else some ((srv.T key).getD 0 + keySum key reports) :=
  collect_foldl reports srv.T key

/-- Counterexample to claim C5 as stated: the report `(1, 0, 1)` (level
1, time 0, where `2^1` does not divide `0+1`) is mapped by the code to
key `(2, int(1/2)) = (2, 0)`, not to the claimed
`(2, ceil(1/2)) = (2, 1)`: collection truncates (floor), it does not
take a ceiling. -/
theorem claim_C5_counterexample :
    (Server.collect ⟨2, fun _ => none⟩ 0 [some (1, 0, 1)]).T (2, 1) = none ∧
    (Server.collect ⟨2, fun _ => none⟩ 0 [some (1, 0, 1)]).T (2, 0)
      = some 1 := by
  constructor
  · rfl
  · rfl

/-- Concrete instance of the amended claim C5: a single level-0 report
at time 0 with value 5 lands at key `(1, 1)` with sum 5. -/
theorem claim_C5_witness :
    (Server.collect ⟨2, fun _ => none⟩ 0 [some (0, 0, 5)]).T (1, 1)
      = some 5 := by
  have hch := claim_C5_amended ⟨2, fun _ => none⟩ 0 [some (0, 0, 5)] (1, 1)
  rw [hch, if_neg (by decide)]
  rfl

/-! ### Aggregation (claims C4 and C7) -/

theorem foldl_fixed {α β : Type} (f : α → β → α) (l : List β) (a : α)
    (h : ∀ x b, f x b = x) : l.foldl f a = a := by
  induction l generalizing a with
  | nil => rfl
  | cons b rest ih => rw [List.foldl_cons, h a b, ih]

/-- When the summary map only holds level-1 (leaf) keys, the
sibling-folding step never fires: every parent key `(h+2, ·)` is absent
from `T`. -/
theorem foldStep_leafOnly (T : TMap)
    (hT : ∀ p : Key, (T p).isSome → p.1 = 1)
    (h : ℕ) (C : Finset Key) (i : ℕ) : foldStep T h C i = C := by
  simp only [foldStep]
  by_cases hpar : i % 2 = 0
  · rw [if_pos hpar, if_neg]
    rintro ⟨-, -, hsome⟩
    have h2 : (h : ℤ) + 2 = 1 := hT _ hsome
    omega
  · rw [if_neg hpar]

/-- Under the leaf-only hypothesis the whole folding pass leaves the
leaf cover untouched. -/
theorem coverFor_leafOnly (T : TMap) (d t : ℕ)
    (hT : ∀ p : Key, (T p).isSome → p.1 = 1) :
    coverFor T d t = leafCover t := by
  unfold coverFor
  apply foldl_fixed
  intro C h
  apply foldl_fixed
  intro C2 i
  exact foldStep_leafOnly T hT h C2 i

theorem sum_leafCover (T : TMap) (t : ℕ) :
    Finset.sum (leafCover t) (tval T)
      = Finset.sum (Finset.range (t + 1))
          (fun i => tval T ((1 : ℤ), (i : ℤ) + 1)) := by
  unfold leafCover
  rw [Finset.sum_image]
  intro x _ y _ hxy
  simp only [Prod.mk.injEq] at hxy
  omega

/-- Claim C4: for a summary map that stores a value at every leaf
`(1, i+1)`, `i < d`, and holds no coarser-level keys, `aggregate`'s
greedy sibling-folding neither drops nor double-counts a leaf:
entry `t` is exactly the scaling factor times the plain prefix sum
`T[(1,1)] + … + T[(1,t+1)]`. -/
theorem claim_C4 (srv : Server) (k : ℕ) (eps : ℝ) (t : ℕ)
    (ht : t < srv.d)
    (_hdense : ∀ i, i < srv.d → (srv.T ((1 : ℤ), (i : ℤ) + 1)).isSome)
    (hleaf : ∀ p : Key, (srv.T p).isSome → p.1 = 1) :
    (Server.aggregate srv k eps).get? t
      = some (scalingFactor k srv.d eps *
          ((Finset.sum (Finset.range (t + 1))
            (fun i => tval srv.T ((1 : ℤ), (i : ℤ) + 1)) : ℤ) : ℝ)) := by
  unfold Server.aggregate
  rw [List.get?_map, List.get?_range ht, Option.map_some']
  rw [coverFor_leafOnly srv.T srv.d t hleaf, sum_leafCover]

/-- A dense leaf-only summary map over a horizon of length 2:
`T[(1,1)] = 1`, `T[(1,2)] = 2`, everything else absent. -/
def Tex : TMap := fun p =>
  if p = ((1 : ℤ), (1 : ℤ)) then some 1
  else if p = ((1 : ℤ), (2 : ℤ)) then some 2
  else none

/-- Concrete instance of claim C4: on the dense two-leaf map,
`aggregate[1]` is the scaling factor times `1 + 2 = 3`. -/
theorem claim_C4_witness :
    (Server.aggregate ⟨2, Tex⟩ 1 1).get? 1
      = some (scalingFactor 1 2 1 * ((3 : ℤ) : ℝ)) := by
  have hdense : ∀ i, i < (2 : ℕ) → (Tex ((1 : ℤ), (i : ℤ) + 1)).isSome := by
    intro i hi
    interval_cases i <;> decide
  have hleaf : ∀ p : Key, (Tex p).isSome → p.1 = 1 := by
    intro p hp
    by_cases h1 : p = ((1 : ℤ), (1 : ℤ))
    · rw [h1]
    · by_cases h2 : p = ((1 : ℤ), (2 : ℤ))
      · rw [h2]
      · exfalso
        unfold Tex at hp
        rw [if_neg h1, if_neg h2] at hp
        simp at hp
  have h := claim_C4 ⟨2, Tex⟩ 1 1 1 (by norm_num) hdense hleaf
  have hsum : (Finset.sum (Finset.range 2)
      (fun i => tval Tex ((1 : ℤ), (i : ℤ) + 1))) = 3 := by decide
  rw [h, hsum]

/-- The bias-correction factor is strictly negative for `eps < 0`:
the randomized-response denominator `exp(eps/2) - 1` is negative while
the rest is positive. -/
theorem scalingFactor_neg (k d : ℕ) (eps : ℝ) (hk : 1 ≤ k) (hd : 2 ≤ d)
    (heps : eps < 0) : scalingFactor k d eps < 0 := by
  unfold scalingFactor
  apply div_neg_of_pos_of_neg
  · apply mul_pos
    · apply mul_pos
      · exact_mod_cast Nat.lt_of_lt_of_le Nat.zero_lt_one hk
      · apply Real.logb_pos (by norm_num)
        exact_mod_cast Nat.lt_of_lt_of_le Nat.one_lt_two hd
    · positivity
  · have hlt : Real.exp (eps / 2) < 1 := Real.exp_lt_one_iff.2 (by linarith)
    linarith

/-- Claim C7 (amended): the code defines no `DegenerateBudgetError` and
`aggregate` raises nothing for any `eps`: it always returns a length-`d`
list.  For `eps < 0` the result is silently scaled by a *negative*
factor (ill-conditioned bias correction); at `eps = 0` numpy's float
division by zero silently yields an infinite factor rather than an
exception. -/
theorem claim_C7_amended (srv : Server) (k : ℕ) (eps : ℝ)
    (heps : eps < 0) (hk : 1 ≤ k) (hd : 2 ≤ srv.d) :
    scalingFactor k srv.d eps < 0 ∧
      ∀ e : ℝ, (Server.aggregate srv k e).length = srv.d := by
  refine ⟨scalingFactor_neg k srv.d eps hk hd heps, ?_⟩
  intro e
  unfold Server.aggregate
  rw [List.length_map, List.length_range]

/-- Counterexample to claim C7 as stated: at `eps = -2 ≤ 0`,
`aggregate` does not fail — it returns the ordinary length-2 result
(here `[0, 0]`, the empty summary map's sums scaled). -/
theorem claim_C7_counterexample :
    Server.aggregate ⟨2, fun _ => none⟩ 1 (-2) = [0, 0] ∧
      (-2 : ℝ) ≤ 0 := by
  constructor
  · unfold Server.aggregate
    have hz : ∀ t : ℕ, Finset.sum (coverFor (fun _ => none) 2 t)
        (tval (fun _ => none)) = 0 := by
      intro t
      apply Finset.sum_eq_zero
      intro x _
      rfl
    have hr : List.range 2 = [0, 1] := rfl
    rw [hr]
    simp [hz]
  · norm_num

/-- Concrete instance of the amended claim C7: at `eps = -1` the
scaling factor is negative and `aggregate` still returns a length-2
list. -/
theorem claim_C7_witness :
    scalingFactor 1 2 (-1) < 0 ∧
      (Server.aggregate ⟨2, fun _ => none⟩ 1 (-1)).length = 2 :=
  ⟨(claim_C7_amended ⟨2, fun _ => none⟩ 1 (-1)
      (by norm_num) (by norm_num) (by norm_num)).1,
    (claim_C7_amended ⟨2, fun _ => none⟩ 1 (-1)
      (by norm_num) (by norm_num) (by norm_num)).2 (-1)⟩
